import Mathlib

/-!
Shallow embedding of the DugTrio social-listening pipeline
(`BEAST04289/DugTrio`), covering the data model (`src/models.py`), the
trend job (`src/trending_analyzer.py`), the ingestion job
(`src/tracker.py`), the sentiment job (`src/analyser.py`), the two PNL
screenshot parsers (`src/pnl_analyzer.py`, `src/services/pnl_analyzer.py`)
and the sentiment-report endpoint (`src/api/main.py`).

Numeric conventions: Python ints are `ℤ`/`ℕ`, Python floats are idealised
as `ℚ`, timestamps are `ℤ` (seconds since an arbitrary epoch), and text
handled character-by-character is `List Char`.
-/

namespace DugTrio

/-! ### Data model (src/models.py)

One record type per SQLAlchemy model that the claims touch.  The database
tables are lists of rows; an autoincrement primary key is carried as a
plain `ℕ` field. -/

/-- A row of the `tweets` table (`models.Tweet`). -/
structure TweetRow where
  id : ℕ
  tweet_id : String
  text : String
  author_username : String
  created_at : ℤ
  project_tag : String
  sentiment_label : Option String := none
  sentiment_score : Option ℚ := none
  media_url : Option String := none
deriving DecidableEq

/-- A row of the `trending_projects` table (`models.TrendingProject`);
`created_at` (server default) is not modelled. -/
structure TrendRow where
  project_name : String
  mention_count : ℕ
  trend_score : ℚ
deriving DecidableEq

/-- A row of the `pnl_cards` table (`models.PnlCard`).  `token_symbol` and
`extracted_text` are kept as character lists because the parser works
character-by-character. -/
structure PnlCardRow where
  tweet_id : ℕ
  entry_price : Option ℚ := none
  exit_price : Option ℚ := none
  pnl_percentage : Option ℚ := none
  token_symbol : Option (List Char) := none
  analysis_status : String := "pending"
  extracted_text : Option (List Char) := none
deriving DecidableEq

/-- The database state the batch jobs read and write: the `tweets` table,
the `track_requests` table (only its unique `project_name` column matters
to the jobs), the `trending_projects` table and the `pnl_cards` table. -/
structure DB where
  tweets : List TweetRow
  track_requests : List String
  trending : List TrendRow
  pnl_cards : List PnlCardRow
deriving DecidableEq

/-! ### Trend job (src/trending_analyzer.py) -/

/-- `calculate_trend_score` (src/trending_analyzer.py:12-15, duplicated at
src/tracker.py:125-128): `(current_mentions - previous_mentions) /
(previous_mentions + 1)`. -/
def calculate_trend_score (current_mentions previous_mentions : ℤ) : ℚ :=
  ((current_mentions : ℚ) - (previous_mentions : ℚ)) /
    ((previous_mentions : ℚ) + 1)

/-- Four hours in seconds (`timedelta(hours=4)`). -/
def fourHours : ℤ := 4 * 3600

/-- Eight hours in seconds (`timedelta(hours=8)`). -/
def eightHours : ℤ := 8 * 3600

/-- Mention count in the current window: tweets tagged `name` with
`created_at >= now - 4h` (the SQL filter in
src/trending_analyzer.py:46-51). -/
def currentMentions (now : ℤ) (db : DB) (name : String) : ℕ :=
  (db.tweets.filter fun t =>
    t.project_tag == name && decide (now - fourHours ≤ t.created_at)).length

/-- Mention count in the previous window: tweets tagged `name` with
`created_at` between `now - 8h` and `now - 4h` inclusive (SQL `BETWEEN`,
src/trending_analyzer.py:54-59). -/
def previousMentions (now : ℤ) (db : DB) (name : String) : ℕ :=
  (db.tweets.filter fun t =>
    t.project_tag == name &&
      decide (now - eightHours ≤ t.created_at) &&
      decide (t.created_at ≤ now - fourHours)).length

/-- The `trending_results` list built by the per-project loop of
`analyze_and_update_trends` (src/trending_analyzer.py:44-70): one entry per
tracked project whose current-window count is positive. -/
def trendCandidates (now : ℤ) (db : DB) : List TrendRow :=
  db.track_requests.filterMap fun name =>
    let cur := currentMentions now db name
    let prev := previousMentions now db name
    let score := calculate_trend_score (cur : ℤ) (prev : ℤ)
    if 0 < cur then some ⟨name, cur, score⟩ else none

/-- Row comparison used by `trending_results.sort(key=..., reverse=True)`:
`a` may come before `b` iff `b`'s score is at most `a`'s.  Python's sort is
stable, as is `List.insertionSort`. -/
def trendGE (a b : TrendRow) : Prop := b.trend_score ≤ a.trend_score

instance : DecidableRel trendGE := fun a b =>
  inferInstanceAs (Decidable (b.trend_score ≤ a.trend_score))

instance : IsTotal TrendRow trendGE :=
  ⟨fun a b => le_total b.trend_score a.trend_score⟩

instance : IsTrans TrendRow trendGE :=
  ⟨fun _ _ _ h1 h2 => le_trans h2 h1⟩

/-- `analyze_and_update_trends` (src/trending_analyzer.py:17-96): skip when
no project is tracked; skip when no tracked project has current mentions;
otherwise delete the `trending_projects` table and store the top 10
candidates sorted by descending trend score. -/
def analyze_and_update_trends (now : ℤ) (db : DB) : DB :=
  if db.track_requests = [] then db
  else
    let results := trendCandidates now db
    if results = [] then db
    else { db with trending := (results.insertionSort trendGE).take 10 }

/-! ### Sentiment job (src/analyser.py)

The hosted classifier (`transformers` pipeline) is an oracle
`classify : String → Option (String × ℚ)`: `some (label, score)` for a
successful call, `none` when `sentiment_pipeline(text)[0]` raises. -/

/-- `analyze_and_update_sentiment` (src/analyser.py:12-68): every tweet
whose `sentiment_label` is NULL is classified; on success both label and
score are written, on a per-tweet exception the label is set to `'Error'`
(src/analyser.py:56) and the score is left untouched.  Tweets that already
carry a label are not selected and stay as they are. -/
def analyze_and_update_sentiment (classify : String → Option (String × ℚ))
    (tweets : List TweetRow) : List TweetRow :=
  tweets.map fun t =>
    if t.sentiment_label = none then
      match classify t.text with
      | some (label, score) =>
          { t with sentiment_label := some label, sentiment_score := some score }
      | none => { t with sentiment_label := some "Error" }
    else t

/-! ### Ingestion job (src/tracker.py)

`fetch_and_store` receives the API response already unpacked: the fetched
posts, the `includes` user map and the `includes` media map. -/

/-- One post of `response.data`.  `media_keys` is
`attachments["media_keys"]` ( `[]` models a falsy/absent attachment). -/
structure FetchedPost where
  id : ℤ
  text : String
  author_id : ℤ
  created_at : ℤ
  media_keys : List String
deriving DecidableEq

/-- One entry of the `includes` media map: its `type` and optional `url`. -/
structure MediaInfo where
  media_type : String
  url : Option String
deriving DecidableEq

/-- `users.get(author_id, {}).get("username", "Unknown")`
(src/tracker.py:57). -/
def lookupUsername (users : List (ℤ × String)) (uid : ℤ) : String :=
  match users.find? fun u => u.1 == uid with
  | some u => u.2
  | none => "Unknown"

/-- The media-url extraction of src/tracker.py:48-52: take the first media
key, and keep its url only when the keyed media entry exists and has type
`"photo"`. -/
def postMediaUrl (media : List (String × MediaInfo)) (p : FetchedPost) :
    Option String :=
  match p.media_keys with
  | [] => none
  | k :: _ =>
    match media.find? fun m => m.1 == k with
    | some m => if m.2.media_type = "photo" then m.2.url else none
    | none => none

/-- The `Tweet(...)` row built for a new post (src/tracker.py:54-61).  The
autoincrement primary key is assigned by the database at flush and is not
modelled (`id := 0`). -/
def mkTweetRow (users : List (ℤ × String)) (media : List (String × MediaInfo))
    (project_tag : String) (p : FetchedPost) : TweetRow :=
  { id := 0
    tweet_id := toString p.id
    text := p.text
    author_username := lookupUsername users p.author_id
    created_at := p.created_at
    project_tag := project_tag
    media_url := postMediaUrl media p }

/-- The per-post loop of `fetch_and_store` (src/tracker.py:45-63): a post
is added unless a row with its string id already exists.  The session is
created with `autoflush=False` (src/database.py:18), so the duplicate
query sees only the flushed table `db0`, never the rows added earlier in
the same batch. -/
def fetch_and_store (db0 : List TweetRow) (users : List (ℤ × String))
    (media : List (String × MediaInfo)) (project_tag : String)
    (batch : List FetchedPost) : List TweetRow :=
  batch.foldl
    (fun dbAcc p =>
      if db0.any fun r => r.tweet_id == toString p.id then dbAcc
      else dbAcc ++ [mkTweetRow users media project_tag p])
    db0

/-! ### Text helpers shared by the two PNL parsers

Python's `re` classes restricted to ASCII: `\s`, `[a-z]`, `\w` and `\d`.
Non-ASCII whitespace/letters (which Python's Unicode `re` and `str.lower`
would also handle) are not modelled; the theorems that depend on this are
stated over ASCII text. -/

/-- `\s` on ASCII. -/
def reSpace (c : Char) : Bool :=
  c == ' ' || c == '\t' || c == '\n' || c == '\r' || c == '\x0b' || c == '\x0c'

/-- `[a-z]`. -/
def lcLetter (c : Char) : Bool := 'a' ≤ c && c ≤ 'z'

/-- `\w` on ASCII: `[a-zA-Z0-9_]`. -/
def wordChar (c : Char) : Bool := c.isAlpha || c.isDigit || c == '_'

/-- Numeric value of a digit run, most significant first. -/
def digitsToNat (d : List Char) : ℕ :=
  d.foldl (fun a c => 10 * a + (c.toNat - '0'.toNat)) 0

/-- Value of `intPart.fracPart` as an exact rational (`float` idealised). -/
def decimalVal (intPart : List Char) (fracPart : Option (List Char)) : ℚ :=
  (digitsToNat intPart : ℚ) +
    match fracPart with
    | none => 0
    | some f => (digitsToNat f : ℚ) / 10 ^ f.length

/-- The result dictionary of `parse_pnl_data`: both implementations build
exactly the keys `entry_price`, `exit_price`, `pnl_percentage`,
`token_symbol`. -/
structure PnlData where
  entry_price : Option ℚ
  exit_price : Option ℚ
  pnl_percentage : Option ℚ
  token_symbol : Option (List Char)
deriving DecidableEq

/-! ### The simple PNL parser (src/pnl_analyzer.py)

`re.search(r'([\+\-]\d+\.\d+)%', text)`: at a given start the pattern is
deterministic (each greedy `\d+` is followed by a non-digit literal, so
backtracking to a shorter digit run always fails), hence matching at a
position is maximal-munch and the search takes the leftmost position that
matches. -/

namespace Simple

/-- Match `[\+\-]\d+\.\d+%` at the head of `l`; returns
(sign is minus, integer digits, fraction digits). -/
def matchPnlAt : List Char → Option (Bool × List Char × List Char)
  | [] => none
  | c :: rest =>
    if c == '+' || c == '-' then
      let d1 := rest.takeWhile Char.isDigit
      if d1.isEmpty then none
      else
        match rest.dropWhile Char.isDigit with
        | a :: r2 =>
          if a == '.' then
            let d2 := r2.takeWhile Char.isDigit
            if d2.isEmpty then none
            else
              match r2.dropWhile Char.isDigit with
              | b :: _ => if b == '%' then some (c == '-', d1, d2) else none
              | [] => none
          else none
        | [] => none
    else none

/-- Leftmost match of `[\+\-]\d+\.\d+%` (`re.search`). -/
def searchPnl : List Char → Option (Bool × List Char × List Char)
  | [] => none
  | c :: cs =>
    match matchPnlAt (c :: cs) with
    | some r => some r
    | none => searchPnl cs

/-- `float(match.group(1))`: the signed decimal value. -/
def pnlValue (neg : Bool) (d1 d2 : List Char) : ℚ :=
  (if neg then -1 else 1) * decimalVal d1 (some d2)

/-- `parse_pnl_data` (src/pnl_analyzer.py:39-53): the three other keys are
never filled in. -/
def parse_pnl_data (text : List Char) : PnlData :=
  { entry_price := none
    exit_price := none
    token_symbol := none
    pnl_percentage := (searchPnl text).map fun r => pnlValue r.1 r.2.1 r.2.2 }

end Simple

/-! Specification-side vocabulary for the simple parser: what it means for
a substring to match `[\+\-]\d+\.\d+%`. -/

/-- The characters of a percentage token with the given sign and digit
runs. -/
def pnlTokenChars (neg : Bool) (d1 d2 : List Char) : List Char :=
  (if neg then '-' else '+') :: (d1 ++ '.' :: (d2 ++ ['%']))

/-- A nonempty run of decimal digits. -/
def GoodDigits (d : List Char) : Prop := d ≠ [] ∧ ∀ c ∈ d, Char.isDigit c

/-- `m` is a substring matching `[\+\-]\d+\.\d+%`: a sign, one or more
digits, a decimal point, one or more digits, and `%`. -/
def IsPnlMatch (m : List Char) : Prop :=
  ∃ neg d1 d2, GoodDigits d1 ∧ GoodDigits d2 ∧ m = pnlTokenChars neg d1 d2

/-! ### The services PNL parser (src/services/pnl_analyzer.py)

Each regex of `parse_pnl_data` is translated to a matcher at a fixed
position plus a leftmost scan (`re.search`).  As for the simple parser,
every greedy repetition in these patterns is followed by a literal the
repeated class cannot match (or, for `[a-z]{3,5}`, by a `\b`), so
backtracking to a shorter repetition always fails and matching at a
position is deterministic maximal-munch; optional pieces are taken exactly
when their literal text is present, since skipping them when present also
fails (the leftover character matches nothing that follows). -/

namespace Services

/-- The pieces of the numeric group `[\+\-]?\s*\d+(\.\d+)?` captured by
the two percentage regexes: optional sign, the whitespace run between
sign and digits, the integer digits, the optional fraction digits. -/
structure NumParts where
  sign : Option Char
  ws : List Char
  intPart : List Char
  fracPart : Option (List Char)
deriving DecidableEq

/-- `float(group.replace(' ', '').replace('+', ''))`
(src/services/pnl_analyzer.py:56,65): spaces and `'+'` are removed, so any
other whitespace captured by `\s*` survives; `float` accepts it only as
leading whitespace, i.e. when no `'-'` sign precedes it.  `none` models
the `ValueError` branch that leaves `pnl_percentage` unset. -/
def floatOfParts (g : NumParts) : Option ℚ :=
  let wsLeft := g.ws.filter fun c => c ≠ ' '
  let v : ℚ := (if g.sign = some '-' then -1 else 1) * decimalVal g.intPart g.fracPart
  if wsLeft = [] then some v
  else if g.sign = some '-' then none
  else some v

/-- Match `\s*\d+(\.\d+)?\s*%` at the head of `r0`, after `sign` has been
consumed. -/
def numTail (sign : Option Char) (r0 : List Char) : Option NumParts :=
  let ws := r0.takeWhile reSpace
  let r1 := r0.dropWhile reSpace
  let d1 := r1.takeWhile Char.isDigit
  let r2 := r1.dropWhile Char.isDigit
  if d1.isEmpty then none
  else
    let fr : Option (List Char) × List Char :=
      match r2 with
      | a :: rd =>
        if a == '.' then
          let d2 := rd.takeWhile Char.isDigit
          if d2.isEmpty then (none, r2) else (some d2, rd.dropWhile Char.isDigit)
        else (none, r2)
      | [] => (none, r2)
    match fr.2.dropWhile reSpace with
    | b :: _ => if b == '%' then some ⟨sign, ws, d1, fr.1⟩ else none
    | [] => none

/-- Match `[\+\-]?\s*\d+(\.\d+)?\s*%` at the head of `l`; `signRequired`
makes the sign mandatory (`[\+\-]` of the fallback regex). -/
def numThenPercentAt (signRequired : Bool) (l : List Char) : Option NumParts :=
  match l with
  | c :: rest =>
    if c == '+' || c == '-' then numTail (some c) rest
    else if signRequired then none else numTail none l
  | [] => if signRequired then none else numTail none []

/-- Match `(pnl|profit|loss)\s*:?\s*([\+\-]?\s*\d+(\.\d+)?)\s*%` at the
head of `l` (the alternatives are mutually exclusive at a position). -/
def pnl1At (l : List Char) : Option NumParts :=
  let kwRest : Option (List Char) :=
    if l.take 3 = ['p', 'n', 'l'] then some (l.drop 3)
    else if l.take 6 = ['p', 'r', 'o', 'f', 'i', 't'] then some (l.drop 6)
    else if l.take 4 = ['l', 'o', 's', 's'] then some (l.drop 4)
    else none
  match kwRest with
  | none => none
  | some r0 =>
    let r1 := r0.dropWhile reSpace
    let r2 := match r1 with
      | a :: rest => if a == ':' then rest else r1
      | [] => r1
    numThenPercentAt false (r2.dropWhile reSpace)

/-- Match `([\+\-]\s*\d+(\.\d+)?)\s*%` at the head of `l` (the fallback
percentage regex, src/services/pnl_analyzer.py:62). -/
def pnl2At (l : List Char) : Option NumParts := numThenPercentAt true l

/-- `re.search`: try the matcher at every position, leftmost first (also
at the empty position past the last character, where all the patterns
here fail). -/
def scanLeft {α : Type} (f : List Char → Option α) : List Char → Option α
  | [] => f []
  | c :: cs =>
    match f (c :: cs) with
    | some x => some x
    | none => scanLeft f cs

/-- Match `\$([a-z]{3,5})\b` at the head of `l`: after `$` the full
lowercase-letter run must have length 3 to 5 (a longer run makes every
backtrack of `{3,5}` end on a letter, failing `\b`) and be followed by a
non-word character or the end. -/
def symbol1At (l : List Char) : Option (List Char) :=
  match l with
  | c0 :: rest =>
    if c0 == '$' then
      let run := rest.takeWhile lcLetter
      if 3 ≤ run.length && run.length ≤ 5 then
        match rest.dropWhile lcLetter with
        | [] => some run
        | c :: _ => if wordChar c then none else some run
      else none
    else none
  | [] => none

/-- Match `\b([a-z]{3,5})\b\s*(entry|exit)` at a position whose previous
character is `prev` (`none` at the start of the text): the leading `\b`
requires `prev` to be a non-word character. -/
def symbol2At (prev : Option Char) (l : List Char) : Option (List Char) :=
  let boundary : Bool := match prev with
    | none => true
    | some c => !wordChar c
  if !boundary then none
  else
    let run := l.takeWhile lcLetter
    if 3 ≤ run.length && run.length ≤ 5 then
      match l.dropWhile lcLetter with
      | [] => none
      | c :: cs =>
        if wordChar c then none
        else
          let r := (c :: cs).dropWhile reSpace
          if r.take 5 = ['e', 'n', 't', 'r', 'y'] || r.take 4 = ['e', 'x', 'i', 't']
          then some run else none
    else none

/-- Leftmost scan threading the previous character, for the matcher with
a leading `\b`. -/
def scanBound {α : Type} (f : Option Char → List Char → Option α) :
    Option Char → List Char → Option α
  | prev, [] => f prev []
  | prev, c :: cs =>
    match f prev (c :: cs) with
    | some x => some x
    | none => scanBound f (some c) cs

/-- Match `KW\s*(price)?\s*:?\s*\$?(\d+(\.\d+)?)` at the head of `l`,
where `KW` is the literal keyword (`entry` or `exit`); returns the
digits of group 2 (here `float` cannot fail). -/
def priceAfterKeywordAt (kw : List Char) (l : List Char) :
    Option (List Char × Option (List Char)) :=
  if l.take kw.length = kw then
    let r0 := (l.drop kw.length).dropWhile reSpace
    let r1 := if r0.take 5 = ['p', 'r', 'i', 'c', 'e'] then r0.drop 5 else r0
    let r2 := r1.dropWhile reSpace
    let r3 := match r2 with
      | a :: rest => if a == ':' then rest else r2
      | [] => r2
    let r4 := r3.dropWhile reSpace
    let r5 := match r4 with
      | a :: rest => if a == '$' then rest else r4
      | [] => r4
    let d1 := r5.takeWhile Char.isDigit
    if d1.isEmpty then none
    else
      let fr : Option (List Char) :=
        match r5.dropWhile Char.isDigit with
        | a :: rd =>
          if a == '.' then
            let d2 := rd.takeWhile Char.isDigit
            if d2.isEmpty then none else some d2
          else none
        | [] => none
      some (d1, fr)
  else none

/-- `parse_pnl_data` (src/services/pnl_analyzer.py:40-92).  The text is
lowercased first (`str.lower`, modelled with ASCII `Char.toLower`); the
fallback percentage regex runs whenever the first one left
`pnl_percentage` unset (no match or `ValueError`); the second symbol
regex runs only when the first found nothing; entry and exit prices are
searched independently. -/
def parse_pnl_data (text0 : List Char) : PnlData :=
  let text := text0.map Char.toLower
  let pnlFirst := (scanLeft pnl1At text).bind floatOfParts
  let pnl := match pnlFirst with
    | some v => some v
    | none => (scanLeft pnl2At text).bind floatOfParts
  let sym := match scanLeft symbol1At text with
    | some run => some run
    | none => scanBound symbol2At none text
  let entry := (scanLeft (priceAfterKeywordAt ['e', 'n', 't', 'r', 'y']) text).map
    fun p => decimalVal p.1 p.2
  let exitPrice := (scanLeft (priceAfterKeywordAt ['e', 'x', 'i', 't']) text).map
    fun p => decimalVal p.1 p.2
  { entry_price := entry
    exit_price := exitPrice
    pnl_percentage := pnl
    token_symbol := sym.map fun run => run.map Char.toUpper }

end Services

/-! ### PNL card batch job (src/pnl_analyzer.py:55-113)

Image download and OCR are oracles over an arbitrary image type `Img`:
`download url = none` models a failed request, `ocr img = []` an empty
(falsy) OCR result. -/

/-- Whether some `pnl_cards` row references tweet primary key `tid` (the
`Tweet.pnl_card == None` relationship filter, negated). -/
def hasPnlCard (cards : List PnlCardRow) (tid : ℕ) : Bool :=
  cards.any fun c => c.tweet_id == tid

/-- The `tweets_to_process` query (src/pnl_analyzer.py:65-68): tweets with
a non-NULL `media_url` and no `pnl_cards` row, paired with their url. -/
def pnlTweetsToProcess (db : DB) : List (TweetRow × String) :=
  db.tweets.filterMap fun t =>
    match t.media_url with
    | some url => if hasPnlCard db.pnl_cards t.id then none else some (t, url)
    | none => none

/-- The per-tweet body of the loop (src/pnl_analyzer.py:76-102): the
`PnlCard` row added for one processed tweet. -/
def processPnlTweet {Img : Type} (download : String → Option Img)
    (ocr : Img → List Char) (t : TweetRow) (url : String) : PnlCardRow :=
  match download url with
  | none => { tweet_id := t.id, analysis_status := "download_failed" }
  | some img =>
    let txt := ocr img
    if txt = [] then { tweet_id := t.id, analysis_status := "ocr_failed" }
    else
      let d := Simple.parse_pnl_data txt
      { tweet_id := t.id
        analysis_status := "success"
        extracted_text := some txt
        entry_price := d.entry_price
        exit_price := d.exit_price
        pnl_percentage := d.pnl_percentage
        token_symbol := d.token_symbol }

/-- `analyze_pnl_cards` (src/pnl_analyzer.py:55-113): early return when
nothing is selected, otherwise append one card per selected tweet and
commit. -/
def analyze_pnl_cards {Img : Type} (download : String → Option Img)
    (ocr : Img → List Char) (db : DB) : DB :=
  let toProcess := pnlTweetsToProcess db
  if toProcess = [] then db
  else
    { db with
      pnl_cards := db.pnl_cards ++
        toProcess.map fun p => processPnlTweet download ocr p.1 p.2 }

/-! ### Sentiment-report endpoint (src/api/main.py:89-115) -/

/-- SQL `AVG(sentiment_score)` over tweets tagged `tag`
(src/api/main.py:95-97): `AVG` ignores NULL scores and is NULL exactly
when no non-NULL score remains. -/
def avgSentimentScore (tweets : List TweetRow) (tag : String) : Option ℚ :=
  let scores := (tweets.filter fun t => t.project_tag == tag).filterMap
    fun t => t.sentiment_score
  if scores.isEmpty then none else some (scores.sum / scores.length)

/-- The report payload built by `register_sentiment_ip`
(src/api/main.py:104-115).  `score` keeps the exact average (`round(x, 2)`
on a float is not modelled); the `timestamp` field (wall clock) is not
modelled. -/
structure SentimentReport where
  project : String
  sentiment : String
  score : ℚ
  generator : String
  note : String
deriving DecidableEq

/-- `POST /ip/register-sentiment/{project_tag}` (src/api/main.py:89-115)
up to the on-chain call: `none` models the HTTP 404 raised when the
average is NULL, otherwise the report is built with the label rules
`> 0.6 → Bullish`, `< 0.4 → Bearish`, else `Neutral`. -/
def register_sentiment_ip (tweets : List TweetRow) (tag : String) :
    Option SentimentReport :=
  match avgSentimentScore tweets tag with
  | none => none
  | some avg =>
    let label := if avg > 0.6 then "Bullish"
      else if avg < 0.4 then "Bearish"
      else "Neutral"
    some
      { project := tag
        sentiment := label
        score := avg
        generator := "DugTrio AI"
        note := "Generated via DugTrio Sentiment Engine" }

/-! ## Theorems -/

/-- C2: for integer mention counts `current_mentions ≥ 0` and
`previous_mentions ≥ 0`, `calculate_trend_score` never divides by zero —
the denominator `previous_mentions + 1` is nonzero — and returns exactly
`(current_mentions - previous_mentions) / (previous_mentions + 1)`. -/
theorem calculate_trend_score_safe (c p : ℤ) (_hc : 0 ≤ c) (hp : 0 ≤ p) :
    ((p : ℚ) + 1 ≠ 0) ∧
      calculate_trend_score c p = ((c : ℚ) - (p : ℚ)) / ((p : ℚ) + 1) := by
  refine ⟨?_, rfl⟩
  have hp' : (0 : ℚ) ≤ (p : ℚ) := by exact_mod_cast hp
  intro h
  linarith [h.symm.le]

/-- Witness for C2 at `current_mentions = 3`, `previous_mentions = 0`. -/
theorem calculate_trend_score_safe_witness :
    (((0 : ℤ) : ℚ) + 1 ≠ 0) ∧
      calculate_trend_score 3 0 =
        (((3 : ℤ) : ℚ) - ((0 : ℤ) : ℚ)) / (((0 : ℤ) : ℚ) + 1) :=
  calculate_trend_score_safe 3 0 (by norm_num) (by norm_num)

/-- C5: `calculate_trend_score` is strictly increasing in the current
count and strictly decreasing in the previous count, over nonnegative
integers. -/
theorem calculate_trend_score_monotone :
    (∀ c1 c2 p : ℤ, 0 ≤ c2 → c2 < c1 → 0 ≤ p →
        calculate_trend_score c2 p < calculate_trend_score c1 p) ∧
    (∀ c p1 p2 : ℤ, 0 ≤ c → 0 ≤ p2 → p2 < p1 →
        calculate_trend_score c p1 < calculate_trend_score c p2) := by
  constructor
  · intro c1 c2 p _hc2 hlt hp
    unfold calculate_trend_score
    have hp1 : (0 : ℚ) < (p : ℚ) + 1 := by
      have : (0 : ℚ) ≤ (p : ℚ) := by exact_mod_cast hp
      linarith
    rw [div_lt_div_iff_of_pos_right hp1]
    have : (c2 : ℚ) < (c1 : ℚ) := by exact_mod_cast hlt
    linarith
  · intro c p1 p2 hc hp2 hlt
    unfold calculate_trend_score
    have h2 : (0 : ℚ) < (p2 : ℚ) + 1 := by
      have : (0 : ℚ) ≤ (p2 : ℚ) := by exact_mod_cast hp2
      linarith
    have hlt' : (p2 : ℚ) < (p1 : ℚ) := by exact_mod_cast hlt
    have h1 : (0 : ℚ) < (p1 : ℚ) + 1 := by linarith
    rw [div_lt_div_iff₀ h1 h2]
    have hc' : (0 : ℚ) ≤ (c : ℚ) := by exact_mod_cast hc
    nlinarith [mul_lt_mul_of_pos_left hlt' (show (0 : ℚ) < (c : ℚ) + 1 by linarith)]

/-- C9: when no project is tracked, or no tracked project has a mention
in the current window, `analyze_and_update_trends` returns early and the
whole database state — in particular the `trending_projects` table — is
unchanged. -/
theorem analyze_trends_noop (now : ℤ) (db : DB)
    (h : db.track_requests = [] ∨
      ∀ name ∈ db.track_requests, currentMentions now db name = 0) :
    analyze_and_update_trends now db = db := by
  unfold analyze_and_update_trends
  rcases h with h | h
  · simp [h]
  · by_cases hnil : db.track_requests = []
    · simp [hnil]
    · have hcand : trendCandidates now db = [] := by
        unfold trendCandidates
        rw [List.filterMap_eq_nil_iff]
        intro name hmem
        simp [h name hmem]
      simp [hnil, hcand]

/-- Witness for C9: an untracked state with a stale trending row is left
untouched. -/
theorem analyze_trends_noop_witness :
    analyze_and_update_trends 0 ⟨[], [], [⟨"old", 2, 1⟩], []⟩ =
      ⟨[], [], [⟨"old", 2, 1⟩], []⟩ :=
  analyze_trends_noop 0 ⟨[], [], [⟨"old", 2, 1⟩], []⟩ (Or.inl rfl)

/-- The endpoint's average is NULL exactly when no tweet tagged `tag` has
a non-NULL sentiment score. -/
lemma avgSentimentScore_eq_none_iff (tweets : List TweetRow) (tag : String) :
    avgSentimentScore tweets tag = none ↔
      ¬ ∃ t ∈ tweets, t.project_tag = tag ∧ t.sentiment_score ≠ none := by
  unfold avgSentimentScore
  by_cases h :
      ((tweets.filter fun t => t.project_tag == tag).filterMap
        fun t => t.sentiment_score) = []
  · simp only [h, List.isEmpty_nil, if_true, true_iff]
    rw [List.filterMap_eq_nil_iff] at h
    rintro ⟨t, hmem, htag, hscore⟩
    exact hscore (h t (List.mem_filter.mpr ⟨hmem, by simp [htag]⟩))
  · rw [if_neg (by simpa [List.isEmpty_iff] using h)]
    simp only [reduceCtorEq, false_iff, not_not]
    rcases List.exists_mem_of_ne_nil _ h with ⟨q, hq⟩
    rcases List.mem_filterMap.mp hq with ⟨t, htf, hts⟩
    rcases List.mem_filter.mp htf with ⟨hmem, htag⟩
    exact ⟨t, hmem, by simpa using htag, by simp [hts]⟩

/-- C10: `POST /ip/register-sentiment/{project_tag}` raises HTTP 404 iff
no tweet tagged with the project has a non-NULL sentiment score; otherwise
the report labels the sentiment Bullish exactly when the average score
exceeds 0.6, Bearish exactly when it is below 0.4, and Neutral
otherwise. -/
theorem register_sentiment_ip_spec (tweets : List TweetRow) (tag : String) :
    (register_sentiment_ip tweets tag = none ↔
      ¬ ∃ t ∈ tweets, t.project_tag = tag ∧ t.sentiment_score ≠ none) ∧
    (∀ rep, register_sentiment_ip tweets tag = some rep →
      ∃ avg, avgSentimentScore tweets tag = some avg ∧
        (rep.sentiment = "Bullish" ↔ 0.6 < avg) ∧
        (rep.sentiment = "Bearish" ↔ avg < 0.4) ∧
        (rep.sentiment = "Neutral" ↔ 0.4 ≤ avg ∧ avg ≤ 0.6)) := by
  constructor
  · rw [← avgSentimentScore_eq_none_iff]
    unfold register_sentiment_ip
    cases avgSentimentScore tweets tag <;> simp
  · intro rep hrep
    unfold register_sentiment_ip at hrep
    cases havg : avgSentimentScore tweets tag with
    | none => rw [havg] at hrep; exact absurd hrep (by simp)
    | some avg =>
      rw [havg] at hrep
      refine ⟨avg, rfl, ?_⟩
      have hrep2 : some
          ({ project := tag
             sentiment := if avg > 0.6 then "Bullish"
               else if avg < 0.4 then "Bearish" else "Neutral"
             score := avg
             generator := "DugTrio AI"
             note := "Generated via DugTrio Sentiment Engine" } :
            SentimentReport) = some rep := hrep
      have hsent : rep.sentiment =
          (if avg > 0.6 then "Bullish"
            else if avg < 0.4 then "Bearish" else "Neutral") := by
        have h' := Option.some_inj.mp hrep2
        rw [← h']
      by_cases h1 : avg > 0.6
      · rw [hsent, if_pos h1]
        refine ⟨by simpa using h1, ?_, ?_⟩
        · constructor
          · intro h; exact absurd h (by decide)
          · intro h; linarith
        · constructor
          · intro h; exact absurd h (by decide)
          · intro h; linarith [h.2]
      · by_cases h2 : avg < 0.4
        · rw [hsent, if_neg h1, if_pos h2]
          refine ⟨?_, by simpa using h2, ?_⟩
          · constructor
            · intro h; exact absurd h (by decide)
            · intro h; linarith
          · constructor
            · intro h; exact absurd h (by decide)
            · intro h; linarith [h.1]
        · rw [hsent, if_neg h1, if_neg h2]
          push_neg at h1 h2
          refine ⟨?_, ?_, by simp [h1, h2]⟩
          · constructor
            · intro h; exact absurd h (by decide)
            · intro h; linarith
          · constructor
            · intro h; exact absurd h (by decide)
            · intro h; linarith

/-- An unlabeled tweet used as concrete input for the sentiment-job
counterexample. -/
def unlabeledTweet : TweetRow :=
  { id := 1
    tweet_id := "1"
    text := "gm"
    author_username := "alice"
    created_at := 0
    project_tag := "Solana" }

/-- C7 counterexample: on a run where the classifier call raises for the
one selected (unlabeled) tweet, the job writes the label `'Error'` but no
confidence score — so it is not true that both a label and a score are
written back to every selected tweet. -/
theorem analyze_sentiment_counterexample :
    unlabeledTweet.sentiment_label = none ∧
      (analyze_and_update_sentiment (fun _ => none) [unlabeledTweet]).map
          (fun t => (t.sentiment_label, t.sentiment_score)) =
        [(some "Error", (none : Option ℚ))] :=
  ⟨rfl, rfl⟩

/-- C7 (amended): the run selects exactly the tweets with a NULL
sentiment label, leaves every already-labeled tweet unchanged, and for
each selected tweet writes back both label and confidence when the
classifier call succeeds; when it fails, only the label `'Error'` is
written and the score is left as it was. -/
theorem analyze_sentiment_spec (classify : String → Option (String × ℚ))
    (tweets : List TweetRow) :
    List.Forall₂
      (fun t t' =>
        (t.sentiment_label ≠ none → t' = t) ∧
        (t.sentiment_label = none →
          (∀ label score, classify t.text = some (label, score) →
            t' = { t with sentiment_label := some label,
                          sentiment_score := some score }) ∧
          (classify t.text = none →
            t' = { t with sentiment_label := some "Error" })))
      tweets (analyze_and_update_sentiment classify tweets) := by
  unfold analyze_and_update_sentiment
  rw [List.forall₂_map_right_iff]
  rw [List.forall₂_same]
  intro t _hmem
  by_cases hlab : t.sentiment_label = none
  · refine ⟨fun h => absurd hlab h, fun _ => ⟨?_, ?_⟩⟩
    · intro label score hcl
      rw [if_pos hlab, hcl]
    · intro hcl
      rw [if_pos hlab, hcl]
  · exact ⟨fun _ => if_neg hlab, fun h => absurd h hlab⟩

/-- Unfolding of the `fetch_and_store` loop: starting from any
accumulator, the rows appended are exactly the batch posts whose string
id matches no row of the flushed table `db0`. -/
lemma fetch_and_store_foldl (db0 : List TweetRow) (users : List (ℤ × String))
    (media : List (String × MediaInfo)) (tag : String) :
    ∀ (batch : List FetchedPost) (acc : List TweetRow),
      batch.foldl
        (fun dbAcc p =>
          if db0.any fun r => r.tweet_id == toString p.id then dbAcc
          else dbAcc ++ [mkTweetRow users media tag p])
        acc =
      acc ++ (batch.filter fun p =>
          decide (∀ r ∈ db0, r.tweet_id ≠ toString p.id)).map
        (mkTweetRow users media tag) := by
  intro batch
  induction batch with
  | nil => intro acc; simp
  | cons p bs ih =>
    intro acc
    rw [List.foldl_cons, List.filter_cons]
    by_cases hp : ∀ r ∈ db0, r.tweet_id ≠ toString p.id
    · have hany : (db0.any fun r => r.tweet_id == toString p.id) = false := by
        rw [List.any_eq_false]
        intro r hr
        simpa using hp r hr
      rw [if_neg (by simp [hany]), if_pos (by simpa using hp), ih]
      simp
    · have hany : (db0.any fun r => r.tweet_id == toString p.id) = true := by
        rw [List.any_eq_true]
        push_neg at hp
        rcases hp with ⟨r, hr, heq⟩
        exact ⟨r, hr, by simpa using heq⟩
      rw [if_pos (by simp [hany]), if_neg (by simpa using hp), ih]

/-- C6 (amended): when the fetched posts have pairwise distinct string
IDs and the stored table has no duplicate `tweet_id`, `fetch_and_store`
leaves the stored rows unchanged, appends a new row exactly for each
fetched post whose string ID equals no stored `tweet_id`, and the
resulting table still has no duplicate `tweet_id`. -/
theorem fetch_and_store_dedup (db0 : List TweetRow) (users : List (ℤ × String))
    (media : List (String × MediaInfo)) (tag : String) (batch : List FetchedPost)
    (hbatch : (batch.map fun p => toString p.id).Nodup)
    (hdb : (db0.map fun r => r.tweet_id).Nodup) :
    fetch_and_store db0 users media tag batch =
      db0 ++ (batch.filter fun p =>
          decide (∀ r ∈ db0, r.tweet_id ≠ toString p.id)).map
        (mkTweetRow users media tag) ∧
    ((fetch_and_store db0 users media tag batch).map fun r => r.tweet_id).Nodup := by
  have hmain := fetch_and_store_foldl db0 users media tag batch db0
  refine ⟨hmain, ?_⟩
  rw [show fetch_and_store db0 users media tag batch =
      batch.foldl
        (fun dbAcc p =>
          if db0.any fun r => r.tweet_id == toString p.id then dbAcc
          else dbAcc ++ [mkTweetRow users media tag p])
        db0 from rfl, hmain, List.map_append]
  have hids : (((batch.filter fun p =>
        decide (∀ r ∈ db0, r.tweet_id ≠ toString p.id)).map
          (mkTweetRow users media tag)).map fun r => r.tweet_id) =
      (batch.filter fun p =>
        decide (∀ r ∈ db0, r.tweet_id ≠ toString p.id)).map
        fun p => toString p.id := by
    rw [List.map_map]
    rfl
  rw [hids]
  rw [List.nodup_append]
  refine ⟨hdb, ?_, ?_⟩
  · exact ((List.filter_sublist batch).map
      fun p : FetchedPost => toString p.id).nodup hbatch
  · intro s hs hs2
    rcases List.mem_map.mp hs2 with ⟨p, hpmem, hps⟩
    rcases List.mem_filter.mp hpmem with ⟨_, hfresh⟩
    rcases List.mem_map.mp hs with ⟨r, hrmem, hrs⟩
    exact (of_decide_eq_true hfresh) r hrmem (by rw [hrs, hps])

/-- A stored row used by the C6 witness. -/
def storedRow : TweetRow :=
  { id := 1, tweet_id := "1", text := "old", author_username := "b",
    created_at := 0, project_tag := "Solana" }

/-- A fresh fetched post used by the C6 witness. -/
def freshPost : FetchedPost :=
  { id := 2, text := "new", author_id := 8, created_at := 5, media_keys := [] }

/-- A fetched post used by the C6 counterexample. -/
def dupPost : FetchedPost :=
  { id := 1, text := "gm", author_id := 7, created_at := 0, media_keys := [] }

/-- C6 counterexample: `autoflush=False` (src/database.py:18) means the
duplicate check never sees the rows added earlier in the same batch, so a
batch containing the same post twice — both IDs absent from the table —
yields two rows with the same `tweet_id`. -/
theorem fetch_and_store_counterexample :
    ((fetch_and_store [] [] [] "Solana" [dupPost, dupPost]).map
        fun r => r.tweet_id) = ["1", "1"] ∧
      ¬ ((fetch_and_store [] [] [] "Solana" [dupPost, dupPost]).map
          fun r => r.tweet_id).Nodup :=
  ⟨rfl, by decide⟩

/-- Witness for the amended C6 on a stored table with one row and a batch
with one duplicate and one fresh post. -/
theorem fetch_and_store_dedup_witness :
    fetch_and_store [storedRow] [] [] "Solana" [dupPost, freshPost] =
      [storedRow] ++ ([dupPost, freshPost].filter fun p =>
          decide (∀ r ∈ [storedRow], r.tweet_id ≠ toString p.id)).map
        (mkTweetRow [] [] "Solana") ∧
    ((fetch_and_store [storedRow] [] [] "Solana" [dupPost, freshPost]).map
        fun r => r.tweet_id).Nodup :=
  fetch_and_store_dedup [storedRow] [] [] "Solana" [dupPost, freshPost]
    (by decide) (by decide)

/-- Postcondition of a productive trend run (claim C1): the refreshed
`trending_projects` table, together with some leftover list `rest`, is a
permutation of the candidate list; it has `min 10 (number of candidates)`
rows; every stored row scores at least as high as every leftover row; and
every stored row is a tracked project with positive current-window count,
stored with that count and its trend score.  Since the new table is fully
characterised by the candidates of this run, every row present before the
run is gone. -/
def TrendUpdateSpec (now : ℤ) (db : DB) : Prop :=
  ∃ rest : List TrendRow,
    (trendCandidates now db).Perm
      ((analyze_and_update_trends now db).trending ++ rest) ∧
    (analyze_and_update_trends now db).trending.length =
      min 10 (trendCandidates now db).length ∧
    (∀ r ∈ (analyze_and_update_trends now db).trending, ∀ s ∈ rest,
        s.trend_score ≤ r.trend_score) ∧
    (∀ r ∈ (analyze_and_update_trends now db).trending,
        r.project_name ∈ db.track_requests ∧
        0 < r.mention_count ∧
        r.mention_count = currentMentions now db r.project_name ∧
        r.trend_score =
          calculate_trend_score (currentMentions now db r.project_name)
            (previousMentions now db r.project_name))

/-- C1: after a run in which at least one tracked project has a mention
in the current 4-hour window, the `trending_projects` table holds exactly
the at-most-10 highest-scoring candidates (tracked projects with positive
current-window count), each with its mention count and trend score, and
the table's previous contents are deleted. -/
theorem analyze_trends_spec (now : ℤ) (db : DB)
    (h : ∃ name ∈ db.track_requests, 0 < currentMentions now db name) :
    TrendUpdateSpec now db := by
  have hnil : ¬ db.track_requests = [] := by
    rcases h with ⟨n, hn, _⟩
    intro he
    rw [he] at hn
    exact absurd hn (List.not_mem_nil n)
  have hcne : ¬ trendCandidates now db = [] := by
    rcases h with ⟨name, hmem, hcur⟩
    intro he
    have hm : (⟨name, currentMentions now db name,
        calculate_trend_score (currentMentions now db name)
          (previousMentions now db name)⟩ : TrendRow) ∈ trendCandidates now db := by
      unfold trendCandidates
      exact List.mem_filterMap.mpr ⟨name, hmem, by simp [hcur]⟩
    rw [he] at hm
    exact absurd hm (List.not_mem_nil _)
  have hres : (analyze_and_update_trends now db).trending =
      ((trendCandidates now db).insertionSort trendGE).take 10 := by
    unfold analyze_and_update_trends
    rw [if_neg hnil, if_neg hcne]
  refine ⟨((trendCandidates now db).insertionSort trendGE).drop 10, ?_, ?_, ?_, ?_⟩
  · rw [hres, List.take_append_drop]
    exact (List.perm_insertionSort trendGE (trendCandidates now db)).symm
  · rw [hres, List.length_take]
    exact congrArg (min 10)
      (List.Perm.length_eq (List.perm_insertionSort trendGE (trendCandidates now db)))
  · intro r hr s hs
    have hsorted : List.Sorted trendGE
        ((trendCandidates now db).insertionSort trendGE) :=
      List.sorted_insertionSort trendGE (trendCandidates now db)
    rw [← List.take_append_drop 10
      ((trendCandidates now db).insertionSort trendGE)] at hsorted
    exact (List.pairwise_append.mp hsorted).2.2 r (hres ▸ hr) s hs
  · intro r hr
    have hr2 : r ∈ trendCandidates now db := by
      refine (List.perm_insertionSort trendGE (trendCandidates now db)).subset ?_
      exact List.mem_of_mem_take (hres ▸ hr)
    rcases List.mem_filterMap.mp hr2 with ⟨name, hmem, hfn⟩
    simp only at hfn
    by_cases hc : 0 < currentMentions now db name
    · rw [if_pos hc, Option.some_inj] at hfn
      rw [← hfn]
      exact ⟨hmem, hc, rfl, rfl⟩
    · rw [if_neg hc] at hfn
      exact absurd hfn (by simp)

/-- Concrete state for the C1 witness: one tracked project with one
current-window mention and one stale trending row. -/
def trendDb : DB :=
  { tweets := [{ id := 1, tweet_id := "1", text := "gm", author_username := "a",
                 created_at := 100000, project_tag := "Solana" }]
    track_requests := ["Solana"]
    trending := [⟨"old", 5, 2⟩]
    pnl_cards := [] }

/-- Witness for C1 on `trendDb`. -/
theorem analyze_trends_spec_witness : TrendUpdateSpec 100000 trendDb :=
  analyze_trends_spec 100000 trendDb (by decide)

/-- Characterisation of the `tweets_to_process` query: selected exactly
are the stored tweets with a media url and no existing card. -/
lemma mem_pnlTweetsToProcess (db : DB) (p : TweetRow × String) :
    p ∈ pnlTweetsToProcess db ↔
      p.1 ∈ db.tweets ∧ p.1.media_url = some p.2 ∧
        ¬ ∃ c ∈ db.pnl_cards, c.tweet_id = p.1.id := by
  unfold pnlTweetsToProcess
  rw [List.mem_filterMap]
  constructor
  · rintro ⟨t, htmem, hft⟩
    cases hmu : t.media_url with
    | none => rw [hmu] at hft; exact absurd hft (by simp)
    | some url =>
      rw [hmu] at hft
      by_cases hc : hasPnlCard db.pnl_cards t.id
      · simp [hc] at hft
      · simp only [hc, if_false, Bool.false_eq_true, if_neg, Option.some_inj] at hft
        rw [← hft]
        refine ⟨htmem, hmu, ?_⟩
        rintro ⟨c, hcmem, hcid⟩
        apply hc
        unfold hasPnlCard
        rw [List.any_eq_true]
        exact ⟨c, hcmem, by simp [hcid]⟩
  · rintro ⟨hmem, hmu, hnc⟩
    refine ⟨p.1, hmem, ?_⟩
    rw [hmu]
    have hc : ¬ hasPnlCard db.pnl_cards p.1.id := by
      unfold hasPnlCard
      intro hcontra
      rcases List.any_eq_true.mp hcontra with ⟨c, hcmem, hcid⟩
      exact hnc ⟨c, hcmem, by simpa using hcid⟩
    simp [hc]

/-- Every branch of `processPnlTweet` references the processed tweet. -/
lemma processPnlTweet_tweet_id {Img : Type} (download : String → Option Img)
    (ocr : Img → List Char) (t : TweetRow) (url : String) :
    (processPnlTweet download ocr t url).tweet_id = t.id := by
  unfold processPnlTweet
  cases download url with
  | none => rfl
  | some img =>
    by_cases h : ocr img = []
    · simp [h]
    · simp [h]

/-- Mapping a projection over a `filterMap` image yields a sublist of the
corresponding projection of the source, when the projections agree. -/
lemma filterMap_map_sublist {α β γ : Type} (f : α → Option β) (g : β → γ)
    (h : α → γ) (hfg : ∀ a b, f a = some b → g b = h a) :
    ∀ l : List α, ((l.filterMap f).map g).Sublist (l.map h) := by
  intro l
  induction l with
  | nil => simp
  | cons a as ih =>
    rw [List.filterMap_cons]
    cases hfa : f a with
    | none => rw [List.map_cons]; exact ih.cons (h a)
    | some b => rw [List.map_cons, List.map_cons, hfg a b hfa]; exact ih.cons₂ (h a)

/-- The ids of the cards appended by one run are the ids of the selected
tweets. -/
lemma pnl_new_ids {Img : Type} (download : String → Option Img)
    (ocr : Img → List Char) (db : DB) :
    (((pnlTweetsToProcess db).map fun p =>
        processPnlTweet download ocr p.1 p.2).map fun c => c.tweet_id) =
      (pnlTweetsToProcess db).map fun p => p.1.id := by
  rw [List.map_map]
  apply List.map_congr_left
  intro p _
  exact processPnlTweet_tweet_id download ocr p.1 p.2

/-- Postcondition of one PNL run (claim C8): the tweets table is
untouched; the selection is exactly the media-carrying tweets without a
card; exactly one new card is appended per selected tweet, with status
`success` (and the parsed fields) when download and OCR succeed,
`download_failed` or `ocr_failed` otherwise; `tweet_id` stays unique over
the cards table; and a second run changes nothing. -/
def PnlCardsSpec {Img : Type} (download : String → Option Img)
    (ocr : Img → List Char) (db : DB) : Prop :=
  (analyze_pnl_cards download ocr db).tweets = db.tweets ∧
  (∀ p : TweetRow × String, p ∈ pnlTweetsToProcess db ↔
      p.1 ∈ db.tweets ∧ p.1.media_url = some p.2 ∧
        ¬ ∃ c ∈ db.pnl_cards, c.tweet_id = p.1.id) ∧
  (∃ newCards : List PnlCardRow,
      (analyze_pnl_cards download ocr db).pnl_cards = db.pnl_cards ++ newCards ∧
      List.Forall₂
        (fun (p : TweetRow × String) (c : PnlCardRow) =>
          c.tweet_id = p.1.id ∧
          (download p.2 = none →
            c = { tweet_id := p.1.id, analysis_status := "download_failed" }) ∧
          (∀ img, download p.2 = some img → ocr img = [] →
            c = { tweet_id := p.1.id, analysis_status := "ocr_failed" }) ∧
          (∀ img, download p.2 = some img → ocr img ≠ [] →
            c.analysis_status = "success" ∧
            c.extracted_text = some (ocr img) ∧
            c.entry_price = (Simple.parse_pnl_data (ocr img)).entry_price ∧
            c.exit_price = (Simple.parse_pnl_data (ocr img)).exit_price ∧
            c.pnl_percentage = (Simple.parse_pnl_data (ocr img)).pnl_percentage ∧
            c.token_symbol = (Simple.parse_pnl_data (ocr img)).token_symbol))
        (pnlTweetsToProcess db) newCards) ∧
  ((analyze_pnl_cards download ocr db).pnl_cards.map fun c => c.tweet_id).Nodup ∧
  analyze_pnl_cards download ocr (analyze_pnl_cards download ocr db) =
    analyze_pnl_cards download ocr db

/-- Unfolded equation of `analyze_pnl_cards`. -/
lemma analyze_pnl_cards_eqn {Img : Type} (download : String → Option Img)
    (ocr : Img → List Char) (x : DB) :
    analyze_pnl_cards download ocr x =
      if pnlTweetsToProcess x = [] then x
      else
        { x with
          pnl_cards := x.pnl_cards ++
            (pnlTweetsToProcess x).map fun p =>
              processPnlTweet download ocr p.1 p.2 } := rfl

/-- The ids of the selected tweets form a sublist of the ids of the
stored tweets. -/
lemma pnl_select_ids_sublist (db : DB) :
    (((pnlTweetsToProcess db).map fun p => p.1.id).Sublist
      (db.tweets.map fun t => t.id)) := by
  unfold pnlTweetsToProcess
  refine filterMap_map_sublist _ _ _ ?_ db.tweets
  intro t p hft
  cases hmu : t.media_url with
  | none => rw [hmu] at hft; exact absurd hft (by simp)
  | some url =>
    rw [hmu] at hft
    by_cases hc : hasPnlCard db.pnl_cards t.id
    · simp [hc] at hft
    · simp only [hc, Bool.false_eq_true, if_neg, if_false, Option.some_inj] at hft
      rw [← hft]

/-- C8: one PNL run processes exactly the media-carrying tweets without a
card, appends exactly one card per processed tweet with the statuses and
fields the claim lists, keeps `tweet_id` unique across the cards table,
and a second run on the resulting state writes nothing. -/
theorem analyze_pnl_cards_spec {Img : Type} (download : String → Option Img)
    (ocr : Img → List Char) (db : DB)
    (htids : (db.tweets.map fun t => t.id).Nodup)
    (hcards : (db.pnl_cards.map fun c => c.tweet_id).Nodup) :
    PnlCardsSpec download ocr db := by
  by_cases hP : pnlTweetsToProcess db = []
  · have hid : analyze_pnl_cards download ocr db = db := by
      rw [analyze_pnl_cards_eqn, if_pos hP]
    refine ⟨by rw [hid], mem_pnlTweetsToProcess db,
      ⟨[], by rw [hid, List.append_nil], by rw [hP]; exact List.Forall₂.nil⟩,
      by rw [hid]; exact hcards, ?_⟩
    rw [hid]
    exact hid
  · have hdb' : analyze_pnl_cards download ocr db =
        { db with
          pnl_cards := db.pnl_cards ++
            (pnlTweetsToProcess db).map fun p =>
              processPnlTweet download ocr p.1 p.2 } := by
      rw [analyze_pnl_cards_eqn, if_neg hP]
    have hfa : List.Forall₂
        (fun (p : TweetRow × String) (c : PnlCardRow) =>
          c.tweet_id = p.1.id ∧
          (download p.2 = none →
            c = { tweet_id := p.1.id, analysis_status := "download_failed" }) ∧
          (∀ img, download p.2 = some img → ocr img = [] →
            c = { tweet_id := p.1.id, analysis_status := "ocr_failed" }) ∧
          (∀ img, download p.2 = some img → ocr img ≠ [] →
            c.analysis_status = "success" ∧
            c.extracted_text = some (ocr img) ∧
            c.entry_price = (Simple.parse_pnl_data (ocr img)).entry_price ∧
            c.exit_price = (Simple.parse_pnl_data (ocr img)).exit_price ∧
            c.pnl_percentage = (Simple.parse_pnl_data (ocr img)).pnl_percentage ∧
            c.token_symbol = (Simple.parse_pnl_data (ocr img)).token_symbol))
        (pnlTweetsToProcess db)
        ((pnlTweetsToProcess db).map fun p =>
          processPnlTweet download ocr p.1 p.2) := by
      rw [List.forall₂_map_right_iff, List.forall₂_same]
      intro p _hp
      refine ⟨processPnlTweet_tweet_id download ocr p.1 p.2, ?_, ?_, ?_⟩
      · intro hdl
        unfold processPnlTweet
        rw [hdl]
      · intro img hdl hocr
        unfold processPnlTweet
        rw [hdl]
        simp [hocr]
      · intro img hdl hocr
        unfold processPnlTweet
        rw [hdl]
        simp [hocr]
    have hnodup : ((analyze_pnl_cards download ocr db).pnl_cards.map
        fun c => c.tweet_id).Nodup := by
      rw [hdb']
      simp only [List.map_append]
      rw [List.nodup_append]
      refine ⟨hcards, ?_, ?_⟩
      · rw [pnl_new_ids]
        exact (pnl_select_ids_sublist db).nodup htids
      · intro tid h_old h_new
        rw [pnl_new_ids] at h_new
        rcases List.mem_map.mp h_new with ⟨p, hpmem, hpid⟩
        rcases List.mem_map.mp h_old with ⟨c, hcmem, hcid⟩
        rcases (mem_pnlTweetsToProcess db p).mp hpmem with ⟨_, _, hnc⟩
        exact hnc ⟨c, hcmem, by rw [hcid, hpid]⟩
    have hP2 : pnlTweetsToProcess (analyze_pnl_cards download ocr db) = [] := by
      rw [hdb', List.eq_nil_iff_forall_not_mem]
      intro p hp
      rcases (mem_pnlTweetsToProcess _ p).mp hp with ⟨hmem, hmu, hnc⟩
      apply hnc
      by_cases hc : hasPnlCard db.pnl_cards p.1.id
      · rcases List.any_eq_true.mp hc with ⟨c, hcmem, hcid⟩
        exact ⟨c, List.mem_append_left _ hcmem, by simpa using hcid⟩
      · have hsel : (p.1, p.2) ∈ pnlTweetsToProcess db := by
          refine (mem_pnlTweetsToProcess db (p.1, p.2)).mpr ⟨hmem, hmu, ?_⟩
          rintro ⟨c, hcmem, hcid⟩
          apply hc
          unfold hasPnlCard
          rw [List.any_eq_true]
          exact ⟨c, hcmem, by simp [hcid]⟩
        exact ⟨processPnlTweet download ocr p.1 p.2,
          List.mem_append_right _ (List.mem_map.mpr ⟨(p.1, p.2), hsel, rfl⟩),
          processPnlTweet_tweet_id download ocr p.1 p.2⟩
    refine ⟨by rw [hdb'], mem_pnlTweetsToProcess db,
      ⟨(pnlTweetsToProcess db).map fun p => processPnlTweet download ocr p.1 p.2,
        by rw [hdb'], hfa⟩, hnodup, ?_⟩
    rw [analyze_pnl_cards_eqn download ocr (analyze_pnl_cards download ocr db),
      if_pos hP2]

/-- Concrete state for the C8 witness: one tweet with an attached image
and an empty cards table. -/
def pnlDb : DB :=
  { tweets := [{ id := 1, tweet_id := "1", text := "t", author_username := "a",
                 created_at := 0, project_tag := "Solana",
                 media_url := some "http" }]
    track_requests := []
    trending := []
    pnl_cards := [] }

/-- Witness for C8 on `pnlDb`, with a download oracle that always
succeeds and an OCR oracle that reads `+1.5%`. -/
theorem analyze_pnl_cards_spec_witness :
    PnlCardsSpec (fun _ : String => some ())
      (fun _ : Unit => ['+', '1', '.', '5', '%']) pnlDb :=
  analyze_pnl_cards_spec (fun _ : String => some ())
    (fun _ : Unit => ['+', '1', '.', '5', '%']) pnlDb (by decide) (by decide)

/-- `takeWhile`/`dropWhile` on a list that starts with a satisfying run
followed by a failing element. -/
lemma takeWhile_sandwich (p : Char → Bool) {d : List Char}
    (hd : ∀ c ∈ d, p c) {x : Char} (hx : p x = false) (r : List Char) :
    (d ++ x :: r).takeWhile p = d ∧ (d ++ x :: r).dropWhile p = x :: r := by
  induction d with
  | nil => simp [List.takeWhile_cons, List.dropWhile_cons, hx]
  | cons a as ih =>
    have ha : p a := hd a (List.mem_cons_self a as)
    have ih2 := ih fun c hc => hd c (List.mem_cons_of_mem a hc)
    simp [List.takeWhile_cons, List.dropWhile_cons, ha, ih2.1, ih2.2]

/-- Soundness of the simple percentage matcher: a match at the head of
`l` decomposes `l` into a well-formed token followed by a suffix. -/
lemma matchPnlAt_sound {l : List Char} {neg : Bool} {d1 d2 : List Char}
    (h : Simple.matchPnlAt l = some (neg, d1, d2)) :
    GoodDigits d1 ∧ GoodDigits d2 ∧
      ∃ suf, l = pnlTokenChars neg d1 d2 ++ suf := by
  cases l with
  | nil => simp [Simple.matchPnlAt] at h
  | cons c rest =>
    simp only [Simple.matchPnlAt] at h
    by_cases hc : (c == '+' || c == '-') = true
    · rw [if_pos hc] at h
      by_cases h1 : (rest.takeWhile Char.isDigit).isEmpty
      · rw [if_pos h1] at h; exact absurd h (by simp)
      · rw [if_neg h1] at h
        cases hdw : rest.dropWhile Char.isDigit with
        | nil => rw [hdw] at h; exact absurd h (by simp)
        | cons a r2 =>
          rw [hdw] at h
          simp only at h
          by_cases ha : (a == '.') = true
          · rw [if_pos ha] at h
            by_cases h2 : (r2.takeWhile Char.isDigit).isEmpty
            · rw [if_pos h2] at h; exact absurd h (by simp)
            · rw [if_neg h2] at h
              cases hdw2 : r2.dropWhile Char.isDigit with
              | nil => rw [hdw2] at h; exact absurd h (by simp)
              | cons b r3 =>
                rw [hdw2] at h
                simp only at h
                by_cases hb : (b == '%') = true
                · rw [if_pos hb] at h
                  rw [Option.some_inj, Prod.mk.injEq, Prod.mk.injEq] at h
                  obtain ⟨hneg, hd1, hd2⟩ := h
                  have ha' : a = '.' := by simpa using ha
                  have hb' : b = '%' := by simpa using hb
                  have hrest : rest = d1 ++ '.' :: r2 := by
                    conv_lhs =>
                      rw [← List.takeWhile_append_dropWhile Char.isDigit rest]
                    rw [hd1, hdw, ha']
                  have hr2 : r2 = d2 ++ '%' :: r3 := by
                    conv_lhs =>
                      rw [← List.takeWhile_append_dropWhile Char.isDigit r2]
                    rw [hd2, hdw2, hb']
                  have hcp : c = (if neg then '-' else '+') := by
                    rcases (by simpa using hc : c = '+' ∨ c = '-') with hv | hv
                    · subst hv
                      have hnf : neg = false := by rw [← hneg]; rfl
                      rw [hnf]
                      rfl
                    · subst hv
                      have hnt : neg = true := by rw [← hneg]; rfl
                      rw [hnt]
                      rfl
                  refine ⟨⟨?_, ?_⟩, ⟨?_, ?_⟩, r3, ?_⟩
                  · intro he
                    apply h1
                    rw [hd1, he]
                    rfl
                  · intro x hx
                    rw [← hd1] at hx
                    exact List.mem_takeWhile_imp hx
                  · intro he
                    apply h2
                    rw [hd2, he]
                    rfl
                  · intro x hx
                    rw [← hd2] at hx
                    exact List.mem_takeWhile_imp hx
                  · unfold pnlTokenChars
                    rw [← hcp, hrest, hr2]
                    simp
                · rw [if_neg hb] at h; exact absurd h (by simp)
          · rw [if_neg ha] at h; exact absurd h (by simp)
    · rw [if_neg hc] at h; exact absurd h (by simp)

/-- Completeness of the simple percentage matcher: a well-formed token at
the head of the input is matched, with exactly its digit runs. -/
lemma matchPnlAt_complete (neg : Bool) {d1 d2 : List Char}
    (h1 : GoodDigits d1) (h2 : GoodDigits d2) (suf : List Char) :
    Simple.matchPnlAt (pnlTokenChars neg d1 d2 ++ suf) = some (neg, d1, d2) := by
  obtain ⟨h1n, h1d⟩ := h1
  obtain ⟨h2n, h2d⟩ := h2
  have hsand1 := takeWhile_sandwich Char.isDigit h1d
    (show Char.isDigit '.' = false from rfl) (d2 ++ '%' :: suf)
  have hsand2 := takeWhile_sandwich Char.isDigit h2d
    (show Char.isDigit '%' = false from rfl) suf
  have hshape : pnlTokenChars neg d1 d2 ++ suf =
      (if neg then '-' else '+') :: (d1 ++ '.' :: (d2 ++ '%' :: suf)) := by
    unfold pnlTokenChars
    simp
  rw [hshape]
  cases neg with
  | false =>
    simp only [if_neg (by simp : ¬ (false = true))]
    simp only [Simple.matchPnlAt, hsand1.1, hsand1.2,
      List.isEmpty_eq_false.mpr h1n]
    simp only [hsand2.1, hsand2.2, List.isEmpty_eq_false.mpr h2n]
    rfl
  | true =>
    simp only [if_pos rfl]
    simp only [Simple.matchPnlAt, hsand1.1, hsand1.2,
      List.isEmpty_eq_false.mpr h1n]
    simp only [hsand2.1, hsand2.2, List.isEmpty_eq_false.mpr h2n]
    rfl

/-- Soundness of the simple search: a hit decomposes the text at the
leftmost position where a token starts. -/
lemma searchPnl_sound :
    ∀ {l : List Char} {neg : Bool} {d1 d2 : List Char},
    Simple.searchPnl l = some (neg, d1, d2) →
    ∃ pre suf, l = pre ++ pnlTokenChars neg d1 d2 ++ suf ∧
      GoodDigits d1 ∧ GoodDigits d2 ∧
      ∀ pre2 m2 suf2, l = pre2 ++ m2 ++ suf2 → IsPnlMatch m2 →
        pre.length ≤ pre2.length := by
  intro l
  induction l with
  | nil => intro neg d1 d2 h; simp [Simple.searchPnl] at h
  | cons c cs ih =>
    intro neg d1 d2 h
    simp only [Simple.searchPnl] at h
    cases hm : Simple.matchPnlAt (c :: cs) with
    | some r =>
      rw [hm] at h
      simp only [Option.some_inj] at h
      subst h
      obtain ⟨h1, h2, suf, heq⟩ := matchPnlAt_sound hm
      exact ⟨[], suf, by simpa using heq, h1, h2, fun pre2 m2 suf2 _ _ => by simp⟩
    | none =>
      rw [hm] at h
      simp only at h
      obtain ⟨pre, suf, heq, h1, h2, hmin⟩ := ih h
      refine ⟨c :: pre, suf, by rw [List.cons_append, List.cons_append, ← heq],
        h1, h2, ?_⟩
      intro pre2 m2 suf2 hsplit hm2
      cases pre2 with
      | nil =>
        obtain ⟨neg2, d12, d22, h12, h22, hm2eq⟩ := hm2
        rw [List.nil_append] at hsplit
        have : Simple.matchPnlAt (c :: cs) = some (neg2, d12, d22) := by
          rw [hsplit, hm2eq, List.append_assoc] at *
          exact matchPnlAt_complete neg2 h12 h22 suf2
        rw [this] at hm
        exact absurd hm (by simp)
      | cons a pre2t =>
        have hcs : cs = pre2t ++ m2 ++ suf2 := by
          rw [List.cons_append, List.cons_append, List.cons.injEq] at hsplit
          exact hsplit.2
        have := hmin pre2t m2 suf2 hcs hm2
        simpa using Nat.succ_le_succ this

/-- When the simple search misses, no substring of the text is a
well-formed token. -/
lemma searchPnl_none :
    ∀ {l : List Char}, Simple.searchPnl l = none →
    ∀ pre m suf, l = pre ++ m ++ suf → ¬ IsPnlMatch m := by
  intro l
  induction l with
  | nil =>
    intro _ pre m suf heq hm
    obtain ⟨neg, d1, d2, _, _, hmeq⟩ := hm
    have : m = [] := by
      rcases List.append_eq_nil.mp
        (List.append_eq_nil.mp heq.symm).1 with ⟨_, h2⟩
      exact h2
    rw [this] at hmeq
    exact absurd hmeq.symm (by simp [pnlTokenChars])
  | cons c cs ih =>
    intro h pre m suf heq hm
    simp only [Simple.searchPnl] at h
    cases hmt : Simple.matchPnlAt (c :: cs) with
    | some r => rw [hmt] at h; exact absurd h (by simp)
    | none =>
      rw [hmt] at h
      simp only at h
      cases pre with
      | nil =>
        obtain ⟨neg2, d12, d22, h12, h22, hm2eq⟩ := hm
        rw [List.nil_append] at heq
        have : Simple.matchPnlAt (c :: cs) = some (neg2, d12, d22) := by
          rw [heq, hm2eq]
          exact matchPnlAt_complete neg2 h12 h22 suf
        rw [this] at hmt
        exact absurd hmt (by simp)
      | cons a pret =>
        have hcs : cs = pret ++ m ++ suf := by
          rw [List.cons_append, List.cons_append, List.cons.injEq] at heq
          exact heq.2
        exact ih h pret m suf hcs hm

/-- C3: `parse_pnl_data` in src/pnl_analyzer.py returns a dictionary with
exactly the four keys, of which `entry_price`, `exit_price` and
`token_symbol` are always None, while `pnl_percentage` is the signed
decimal value of the first (leftmost) substring matching a sign, digits,
a decimal point, digits and `%` — or None when no substring matches. -/
theorem parse_pnl_data_simple_spec (text : List Char) :
    (Simple.parse_pnl_data text).entry_price = none ∧
    (Simple.parse_pnl_data text).exit_price = none ∧
    (Simple.parse_pnl_data text).token_symbol = none ∧
    (∀ v : ℚ, (Simple.parse_pnl_data text).pnl_percentage = some v ↔
      ∃ pre neg d1 d2 suf,
        text = pre ++ pnlTokenChars neg d1 d2 ++ suf ∧
        GoodDigits d1 ∧ GoodDigits d2 ∧
        (∀ pre2 m2 suf2, text = pre2 ++ m2 ++ suf2 → IsPnlMatch m2 →
          pre.length ≤ pre2.length) ∧
        v = Simple.pnlValue neg d1 d2) ∧
    ((Simple.parse_pnl_data text).pnl_percentage = none ↔
      ∀ pre m suf, text = pre ++ m ++ suf → ¬ IsPnlMatch m) := by
  refine ⟨rfl, rfl, rfl, ?_, ?_⟩
  · intro v
    constructor
    · intro hv
      simp only [Simple.parse_pnl_data] at hv
      cases hs : Simple.searchPnl text with
      | none => rw [hs] at hv; exact absurd hv (by simp)
      | some r =>
        obtain ⟨neg, d1, d2⟩ := r
        rw [hs] at hv
        simp at hv
        obtain ⟨pre, suf, heq, h1, h2, hmin⟩ := searchPnl_sound hs
        exact ⟨pre, neg, d1, d2, suf, heq, h1, h2, hmin, hv.symm⟩
    · rintro ⟨pre, neg, d1, d2, suf, heq, h1, h2, hmin, hv⟩
      cases hs : Simple.searchPnl text with
      | none =>
        exact absurd (⟨neg, d1, d2, h1, h2, rfl⟩ :
            IsPnlMatch (pnlTokenChars neg d1 d2))
          (searchPnl_none hs pre _ suf heq)
      | some r =>
        obtain ⟨neg0, d10, d20⟩ := r
        obtain ⟨pre0, suf0, heq0, h10, h20, hmin0⟩ := searchPnl_sound hs
        have hle1 := hmin0 pre _ suf heq ⟨neg, d1, d2, h1, h2, rfl⟩
        have hle2 := hmin pre0 _ suf0 heq0 ⟨neg0, d10, d20, h10, h20, rfl⟩
        have hlen : pre0.length = pre.length := le_antisymm hle1 hle2
        have e1 : pre0 ++ (pnlTokenChars neg0 d10 d20 ++ suf0) =
            pre ++ (pnlTokenChars neg d1 d2 ++ suf) := by
          rw [← List.append_assoc, ← List.append_assoc, ← heq0, ← heq]
        obtain ⟨hpre, e2⟩ := List.append_inj e1 hlen
        have hcomp0 : Simple.matchPnlAt
            (pnlTokenChars neg0 d10 d20 ++ suf0) = some (neg0, d10, d20) :=
          matchPnlAt_complete neg0 h10 h20 suf0
        have hcomp : Simple.matchPnlAt
            (pnlTokenChars neg d1 d2 ++ suf) = some (neg, d1, d2) :=
          matchPnlAt_complete neg h1 h2 suf
        rw [e2, hcomp] at hcomp0
        simp only [Option.some_inj, Prod.mk.injEq] at hcomp0
        obtain ⟨hn, hdd1, hdd2⟩ := hcomp0
        simp only [Simple.parse_pnl_data, hs]
        rw [hv, hn, hdd1, hdd2]
        rfl
  · constructor
    · intro hn pre m suf heq hm
      cases hs : Simple.searchPnl text with
      | none => exact searchPnl_none hs pre m suf heq hm
      | some r => simp [Simple.parse_pnl_data, hs] at hn
    · intro hall
      cases hs : Simple.searchPnl text with
      | none => simp [Simple.parse_pnl_data, hs]
      | some r =>
        obtain ⟨neg0, d10, d20⟩ := r
        obtain ⟨pre0, suf0, heq0, h10, h20, _⟩ := searchPnl_sound hs
        exact absurd (⟨neg0, d10, d20, h10, h20, rfl⟩ :
            IsPnlMatch (pnlTokenChars neg0 d10 d20))
          (hall pre0 _ suf0 heq0)

/-- ASCII characters that are not letters are fixed by `toLower`. -/
lemma toLower_eq_self {c : Char} (h : ¬ c.isAlpha = true) : c.toLower = c := by
  unfold Char.toLower
  have hne : ¬ (65 ≤ c.toNat ∧ c.toNat ≤ 90) := by
    rintro ⟨h1, h2⟩
    apply h
    unfold Char.isAlpha Char.isUpper
    have hv1 : (65 : UInt32) ≤ c.val := by
      rw [UInt32.le_def, BitVec.le_def]
      exact h1
    have hv2 : c.val ≤ (90 : UInt32) := by
      rw [UInt32.le_def, BitVec.le_def]
      exact h2
    simp [hv1, hv2]
  simp only [ge_iff_le]
  rw [if_neg hne]

/-- Lowercase ASCII letters are letters. -/
lemma lcLetter_isAlpha {c : Char} (h : lcLetter c = true) : c.isAlpha = true := by
  unfold lcLetter at h
  simp only [Bool.and_eq_true, decide_eq_true_eq] at h
  unfold Char.isAlpha Char.isLower
  have h1 : (97 : UInt32) ≤ c.val := h.1
  have h2 : c.val ≤ (122 : UInt32) := h.2
  simp [h1, h2]

/-- A character exposed by `dropWhile` belongs to the enclosing list. -/
lemma head_dropWhile_mem {p : Char → Bool} {l x : List Char} {b : Char}
    (h : l.dropWhile p = b :: x) : b ∈ l :=
  (List.dropWhile_sublist p).mem (h ▸ List.mem_cons_self b x)

/-- When a percent sign terminates a match inside a sublist of `r0`, the
percent sign occurs in `r0`. -/
lemma percent_mem_of {X r0 x : List Char} (hsub : X.Sublist r0) {b : Char}
    (hdp : X.dropWhile reSpace = b :: x) (hb : (b == '%') = true) : '%' ∈ r0 := by
  have hbm : b ∈ X := head_dropWhile_mem hdp
  have hbe : b = '%' := by simpa using hb
  exact hbe ▸ hsub.mem hbm

/-- A percentage-tail match requires a percent sign in its input. -/
lemma numTail_percent {s : Option Char} {r0 : List Char} {g : Services.NumParts}
    (h : Services.numTail s r0 = some g) : '%' ∈ r0 := by
  have hsub2 : ((r0.dropWhile reSpace).dropWhile Char.isDigit).Sublist r0 :=
    (List.dropWhile_sublist Char.isDigit).trans (List.dropWhile_sublist reSpace)
  unfold Services.numTail at h
  by_cases h1 : ((r0.dropWhile reSpace).takeWhile Char.isDigit).isEmpty
  · rw [if_pos h1] at h
    exact absurd h (by simp)
  · rw [if_neg h1] at h
    cases hr2 : (r0.dropWhile reSpace).dropWhile Char.isDigit with
    | nil =>
      rw [hr2] at h
      simp only at h
      exact absurd h (by simp)
    | cons a rd =>
      rw [hr2] at h
      simp only at h
      rw [hr2] at hsub2
      have hrdsub : rd.Sublist r0 := (List.sublist_cons_self a rd).trans hsub2
      by_cases ha : (a == '.') = true
      · rw [if_pos ha] at h
        by_cases h2 : (rd.takeWhile Char.isDigit).isEmpty
        · rw [if_pos h2] at h
          simp only at h
          cases hdp : (a :: rd).dropWhile reSpace with
          | nil => rw [hdp] at h; exact absurd h (by simp)
          | cons b x =>
            rw [hdp] at h
            simp only at h
            by_cases hb : (b == '%') = true
            · exact percent_mem_of hsub2 hdp hb
            · rw [if_neg hb] at h; exact absurd h (by simp)
        · rw [if_neg h2] at h
          simp only at h
          cases hdp : (rd.dropWhile Char.isDigit).dropWhile reSpace with
          | nil => rw [hdp] at h; exact absurd h (by simp)
          | cons b x =>
            rw [hdp] at h
            simp only at h
            by_cases hb : (b == '%') = true
            · exact percent_mem_of
                ((List.dropWhile_sublist Char.isDigit).trans hrdsub) hdp hb
            · rw [if_neg hb] at h; exact absurd h (by simp)
      · rw [if_neg ha] at h
        simp only at h
        cases hdp : (a :: rd).dropWhile reSpace with
        | nil => rw [hdp] at h; exact absurd h (by simp)
        | cons b x =>
          rw [hdp] at h
          simp only at h
          by_cases hb : (b == '%') = true
          · exact percent_mem_of hsub2 hdp hb
          · rw [if_neg hb] at h; exact absurd h (by simp)

/-- A sign-then-percentage match requires a percent sign in its input. -/
lemma numThenPercentAt_percent {b : Bool} {l : List Char} {g : Services.NumParts}
    (h : Services.numThenPercentAt b l = some g) : '%' ∈ l := by
  cases l with
  | nil =>
    simp only [Services.numThenPercentAt] at h
    cases b with
    | true => exact absurd h (by simp)
    | false =>
      simp only [if_neg (by simp : ¬ (false = true))] at h
      exact absurd (numTail_percent h) (by simp)
  | cons c rest =>
    simp only [Services.numThenPercentAt] at h
    by_cases hc : (c == '+' || c == '-') = true
    · rw [if_pos hc] at h
      exact List.mem_cons_of_mem c (numTail_percent h)
    · rw [if_neg hc] at h
      cases b with
      | true => exact absurd h (by simp)
      | false =>
        simp only [if_neg (by simp : ¬ (false = true))] at h
        exact numTail_percent h

/-- A keyword-percentage match requires one of the keyword letters. -/
lemma pnl1At_letter {l : List Char} {g : Services.NumParts}
    (h : Services.pnl1At l = some g) : ∃ c ∈ l, c.isAlpha = true := by
  unfold Services.pnl1At at h
  by_cases h3 : l.take 3 = ['p', 'n', 'l']
  · exact ⟨'p', List.mem_of_mem_take (h3 ▸ List.mem_cons_self 'p' ['n', 'l']),
      by decide⟩
  · rw [if_neg h3] at h
    by_cases h6 : l.take 6 = ['p', 'r', 'o', 'f', 'i', 't']
    · exact ⟨'p', List.mem_of_mem_take
        (h6 ▸ List.mem_cons_self 'p' ['r', 'o', 'f', 'i', 't']), by decide⟩
    · rw [if_neg h6] at h
      by_cases h4 : l.take 4 = ['l', 'o', 's', 's']
      · exact ⟨'l', List.mem_of_mem_take
          (h4 ▸ List.mem_cons_self 'l' ['o', 's', 's']), by decide⟩
      · rw [if_neg h4] at h
        exact absurd h (by simp)

/-- A dollar-symbol match requires a lowercase letter. -/
lemma symbol1At_letter {l : List Char} {run : List Char}
    (h : Services.symbol1At l = some run) : ∃ c ∈ l, c.isAlpha = true := by
  cases l with
  | nil => simp [Services.symbol1At] at h
  | cons c0 rest =>
    simp only [Services.symbol1At] at h
    by_cases hd : (c0 == '$') = true
    · rw [if_pos hd] at h
      by_cases hlen : (3 ≤ (rest.takeWhile lcLetter).length &&
          (rest.takeWhile lcLetter).length ≤ 5) = true
      · cases hrun : rest.takeWhile lcLetter with
        | nil => rw [hrun] at hlen; simp at hlen
        | cons a run2 =>
          have ham : a ∈ rest.takeWhile lcLetter :=
            hrun ▸ List.mem_cons_self a run2
          exact ⟨a, List.mem_cons_of_mem c0
              ((List.takeWhile_sublist lcLetter).mem ham),
            lcLetter_isAlpha (List.mem_takeWhile_imp ham)⟩
      · rw [if_neg hlen] at h
        exact absurd h (by simp)
    · rw [if_neg hd] at h
      exact absurd h (by simp)

/-- A boundary-symbol match requires a lowercase letter. -/
lemma symbol2At_letter {prev : Option Char} {l : List Char} {run : List Char}
    (h : Services.symbol2At prev l = some run) : ∃ c ∈ l, c.isAlpha = true := by
  unfold Services.symbol2At at h
  have hcore : ∀ (hb : Bool),
      (if !hb then none
        else
          let run2 := l.takeWhile lcLetter
          if 3 ≤ run2.length && run2.length ≤ 5 then
            match l.dropWhile lcLetter with
            | [] => none
            | c :: cs =>
              if wordChar c then none
              else
                let r := (c :: cs).dropWhile reSpace
                if r.take 5 = ['e', 'n', 't', 'r', 'y'] ||
                    r.take 4 = ['e', 'x', 'i', 't']
                then some run2 else none
          else none) = some run →
        ∃ c ∈ l, c.isAlpha = true := by
    intro hb hsome
    cases hb with
    | false => exact absurd hsome (by simp)
    | true =>
      simp only [Bool.not_true, if_neg (by simp : ¬ (false = true))] at hsome
      by_cases hlen : (3 ≤ (l.takeWhile lcLetter).length &&
          (l.takeWhile lcLetter).length ≤ 5) = true
      · cases hrun : l.takeWhile lcLetter with
        | nil => rw [hrun] at hlen; simp at hlen
        | cons a run2 =>
          have ham : a ∈ l.takeWhile lcLetter :=
            hrun ▸ List.mem_cons_self a run2
          exact ⟨a, (List.takeWhile_sublist lcLetter).mem ham,
            lcLetter_isAlpha (List.mem_takeWhile_imp ham)⟩
      · rw [if_neg hlen] at hsome
        exact absurd hsome (by simp)
  cases prev with
  | none => exact hcore true h
  | some pc => exact hcore (!wordChar pc) h

/-- A price match places the keyword as a prefix of the input. -/
lemma priceAt_prefix {kw l : List Char} {p : List Char × Option (List Char)}
    (h : Services.priceAfterKeywordAt kw l = some p) : ∃ t, l = kw ++ t := by
  unfold Services.priceAfterKeywordAt at h
  by_cases hk : l.take kw.length = kw
  · refine ⟨l.drop kw.length, ?_⟩
    conv_lhs => rw [← List.take_append_drop kw.length l]
    rw [hk]
  · rw [if_neg hk] at h
    exact absurd h (by simp)

/-- Lifting a matcher failure criterion over the leftmost scan. -/
lemma scanLeft_ex {α : Type} (f : List Char → Option α) (Q : Char → Prop)
    (hf : ∀ l x, f l = some x → ∃ c ∈ l, Q c) :
    ∀ {l : List Char} {x : α}, Services.scanLeft f l = some x → ∃ c ∈ l, Q c := by
  intro l
  induction l with
  | nil =>
    intro x h
    simp only [Services.scanLeft] at h
    exact hf [] x h
  | cons c cs ih =>
    intro x h
    simp only [Services.scanLeft] at h
    cases hm : f (c :: cs) with
    | some y => exact hf (c :: cs) y hm
    | none =>
      rw [hm] at h
      simp only at h
      rcases ih h with ⟨c2, hc2, hq⟩
      exact ⟨c2, List.mem_cons_of_mem c hc2, hq⟩

/-- Lifting a matcher failure criterion over the boundary-aware scan. -/
lemma scanBound_ex {α : Type} (f : Option Char → List Char → Option α)
    (Q : Char → Prop)
    (hf : ∀ prev l x, f prev l = some x → ∃ c ∈ l, Q c) :
    ∀ {l : List Char} {prev : Option Char} {x : α},
      Services.scanBound f prev l = some x → ∃ c ∈ l, Q c := by
  intro l
  induction l with
  | nil =>
    intro prev x h
    simp only [Services.scanBound] at h
    exact hf prev [] x h
  | cons c cs ih =>
    intro prev x h
    simp only [Services.scanBound] at h
    cases hm : f prev (c :: cs) with
    | some y => exact hf prev (c :: cs) y hm
    | none =>
      rw [hm] at h
      simp only at h
      rcases ih h with ⟨c2, hc2, hq⟩
      exact ⟨c2, List.mem_cons_of_mem c hc2, hq⟩

/-- ASCII text without letters and without a percent sign: on this
domain both PNL parsers are inert. -/
def AsciiSymbolFree (text : List Char) : Prop :=
  ∀ c ∈ text, c.toNat < 128 ∧ ¬ c.isAlpha = true ∧ c ≠ '%'

/-- C4 counterexample: on `"+5%"` the simple parser finds nothing (its
regex requires a decimal point) while the services parser's fallback
regex accepts an integer percentage, so the two dictionaries differ. -/
theorem parse_pnl_data_impls_differ :
    (Simple.parse_pnl_data ['+', '5', '%']).pnl_percentage = none ∧
    (Services.parse_pnl_data ['+', '5', '%']).pnl_percentage = some 5 ∧
    Simple.parse_pnl_data ['+', '5', '%'] ≠
      Services.parse_pnl_data ['+', '5', '%'] := by
  have hsimple : (Simple.parse_pnl_data ['+', '5', '%']).pnl_percentage = none := by
    have hs : Simple.searchPnl ['+', '5', '%'] = none := by decide
    unfold Simple.parse_pnl_data
    rw [hs]
    rfl
  have h1 : Services.scanLeft Services.pnl1At
      (['+', '5', '%'].map Char.toLower) = none := by decide
  have h2 : Services.scanLeft Services.pnl2At
      (['+', '5', '%'].map Char.toLower) =
      some ⟨some '+', [], ['5'], none⟩ := by decide
  have hserv : (Services.parse_pnl_data ['+', '5', '%']).pnl_percentage =
      some 5 := by
    show (match (Services.scanLeft Services.pnl1At
          (['+', '5', '%'].map Char.toLower)).bind Services.floatOfParts with
      | some v => some v
      | none => (Services.scanLeft Services.pnl2At
          (['+', '5', '%'].map Char.toLower)).bind Services.floatOfParts) =
      some 5
    rw [h1, h2, Option.none_bind, Option.some_bind]
    simp only
    simp [Services.floatOfParts, decimalVal, digitsToNat]
  refine ⟨hsimple, hserv, fun heq => ?_⟩
  rw [heq, hserv] at hsimple
  exact Option.noConfusion hsimple

/-- C4 (amended): the two `parse_pnl_data` implementations agree — both
returning the dictionary with all four values None — on every ASCII text
containing no letter and no percent sign; on general texts they differ
(see the counterexample). -/
theorem parse_pnl_data_agree (text : List Char) (h : AsciiSymbolFree text) :
    Simple.parse_pnl_data text = Services.parse_pnl_data text ∧
    Simple.parse_pnl_data text =
      { entry_price := none, exit_price := none,
        pnl_percentage := none, token_symbol := none } := by
  have hnoalpha : ∀ c ∈ text, ¬ c.isAlpha = true := fun c hc => (h c hc).2.1
  have hnopct : ∀ c ∈ text, c ≠ '%' := fun c hc => (h c hc).2.2
  have hlower : text.map Char.toLower = text := by
    have hfix : ∀ c ∈ text, Char.toLower c = c :=
      fun c hc => toLower_eq_self (hnoalpha c hc)
    rw [List.map_congr_left hfix, List.map_id']
  have hQ : ∀ c ∈ text, ¬ (c.isAlpha = true ∨ c = '%') := by
    intro c hc
    rintro (hA | hP)
    · exact hnoalpha c hc hA
    · exact hnopct c hc hP
  have hsimple : Simple.parse_pnl_data text =
      { entry_price := none, exit_price := none,
        pnl_percentage := none, token_symbol := none } := by
    cases hs : Simple.searchPnl text with
    | some r =>
      obtain ⟨neg, d1, d2⟩ := r
      obtain ⟨pre, suf, heq, _, _, _⟩ := searchPnl_sound hs
      have hpm : '%' ∈ text := by
        rw [heq]
        refine List.mem_append.mpr (Or.inl (List.mem_append.mpr (Or.inr ?_)))
        simp [pnlTokenChars]
      exact absurd rfl (hnopct '%' hpm)
    | none =>
      unfold Simple.parse_pnl_data
      rw [hs]
      rfl
  have h1 : Services.scanLeft Services.pnl1At text = none := by
    cases hx : Services.scanLeft Services.pnl1At text with
    | none => rfl
    | some g =>
      rcases scanLeft_ex Services.pnl1At (fun c => c.isAlpha = true ∨ c = '%')
        (fun l x hl => by
          rcases pnl1At_letter hl with ⟨c, hcmem, hca⟩
          exact ⟨c, hcmem, Or.inl hca⟩) hx with ⟨c, hc, hq⟩
      exact absurd hq (hQ c hc)
  have h2 : Services.scanLeft Services.pnl2At text = none := by
    cases hx : Services.scanLeft Services.pnl2At text with
    | none => rfl
    | some g =>
      rcases scanLeft_ex Services.pnl2At (fun c => c.isAlpha = true ∨ c = '%')
        (fun l x hl => ⟨'%', numThenPercentAt_percent hl, Or.inr rfl⟩) hx
        with ⟨c, hc, hq⟩
      exact absurd hq (hQ c hc)
  have h3 : Services.scanLeft Services.symbol1At text = none := by
    cases hx : Services.scanLeft Services.symbol1At text with
    | none => rfl
    | some g =>
      rcases scanLeft_ex Services.symbol1At (fun c => c.isAlpha = true ∨ c = '%')
        (fun l x hl => by
          rcases symbol1At_letter hl with ⟨c, hcmem, hca⟩
          exact ⟨c, hcmem, Or.inl hca⟩) hx with ⟨c, hc, hq⟩
      exact absurd hq (hQ c hc)
  have h4 : Services.scanBound Services.symbol2At none text = none := by
    cases hx : Services.scanBound Services.symbol2At none text with
    | none => rfl
    | some g =>
      rcases scanBound_ex Services.symbol2At (fun c => c.isAlpha = true ∨ c = '%')
        (fun prev l x hl => by
          rcases symbol2At_letter hl with ⟨c, hcmem, hca⟩
          exact ⟨c, hcmem, Or.inl hca⟩) hx with ⟨c, hc, hq⟩
      exact absurd hq (hQ c hc)
  have h5 : Services.scanLeft
      (Services.priceAfterKeywordAt ['e', 'n', 't', 'r', 'y']) text = none := by
    cases hx : Services.scanLeft
        (Services.priceAfterKeywordAt ['e', 'n', 't', 'r', 'y']) text with
    | none => rfl
    | some g =>
      rcases scanLeft_ex (Services.priceAfterKeywordAt ['e', 'n', 't', 'r', 'y'])
        (fun c => c.isAlpha = true ∨ c = '%')
        (fun l x hl => by
          rcases priceAt_prefix hl with ⟨t, ht⟩
          refine ⟨'e', ?_, Or.inl (by decide)⟩
          rw [ht]
          exact List.mem_append_left t
            (List.mem_cons_self 'e' ['n', 't', 'r', 'y']))
        hx with ⟨c, hc, hq⟩
      exact absurd hq (hQ c hc)
  have h6 : Services.scanLeft
      (Services.priceAfterKeywordAt ['e', 'x', 'i', 't']) text = none := by
    cases hx : Services.scanLeft
        (Services.priceAfterKeywordAt ['e', 'x', 'i', 't']) text with
    | none => rfl
    | some g =>
      rcases scanLeft_ex (Services.priceAfterKeywordAt ['e', 'x', 'i', 't'])
        (fun c => c.isAlpha = true ∨ c = '%')
        (fun l x hl => by
          rcases priceAt_prefix hl with ⟨t, ht⟩
          refine ⟨'e', ?_, Or.inl (by decide)⟩
          rw [ht]
          exact List.mem_append_left t
            (List.mem_cons_self 'e' ['x', 'i', 't']))
        hx with ⟨c, hc, hq⟩
      exact absurd hq (hQ c hc)
  have hserv : Services.parse_pnl_data text =
      { entry_price := none, exit_price := none,
        pnl_percentage := none, token_symbol := none } := by
    unfold Services.parse_pnl_data
    rw [hlower]
    simp [h1, h2, h3, h4, h5, h6]
  exact ⟨hsimple.trans hserv.symm, hsimple⟩

/-- Witness for the amended C4 on the letter-free text `"+5 1"`. -/
theorem parse_pnl_data_agree_witness :
    Simple.parse_pnl_data ['+', '5', ' ', '1'] =
      Services.parse_pnl_data ['+', '5', ' ', '1'] ∧
    Simple.parse_pnl_data ['+', '5', ' ', '1'] =
      { entry_price := none, exit_price := none,
        pnl_percentage := none, token_symbol := none } :=
  parse_pnl_data_agree ['+', '5', ' ', '1']
    (by unfold AsciiSymbolFree; decide)

end DugTrio
